import Mathlib

/-!
Verification of the workspace synchronization engine of `reggie-build-py`
(`src/reggie_build/workspace_sync.py`) against its natural-language
specification.

Modelling conventions:

* A TOML document is shallowly embedded as the inductive `Toml`
  (tables as association lists in insertion order, arrays, strings,
  booleans).  `tomlkit`/`dict` operations (`get`, item assignment,
  `remove`, `update`) become the pure helpers `lookup`, `setKey`,
  `removeKey` below; in-place mutation becomes functional update.
* Filesystem paths are lists of path components (`List String`);
  an absolute path is its full component list, a root-relative path the
  list of components below the workspace root.  `pathlib.Path.parent`
  is `List.dropLast`, `Path.relative_to` is a prefix drop, and
  `os.path.relpath` for already-normalized directories is
  `relpathList` below.
* Filesystem state (which directories contain a `pyproject.toml`) is a
  parameter `fs : List String → Bool`, matching the single `.exists()`
  query the source performs.  As in the application entry point
  (`sync` performs `os.chdir(root_dir)` first), the current working
  directory is identified with the workspace root, so relative paths
  resolve against the root.
* Python exceptions (`raise ValueError`) become `Except String`
  results carrying the exact message; the source raises before any
  mutation, so an `Except.error` result models "no node changed".
* Python truthiness of TOML values (`if data:`) is `Toml.truthy`.
* `copy.deepcopy` is the identity in this pure embedding.
* The classes `PyProject` / `PyProjectTree` live in
  `reggie_build/pyproject.py`, which is not part of the sources at
  hand; their fields (`data`, `path`, `members`, `filtered`, `name`)
  and the operations `table(..., create=...)` and `prune()` are
  modelled from the spec where noted.
-/

namespace ReggieBuild

/-- Shallow embedding of TOML values: tables are association lists in
insertion order, arrays are lists, scalars are strings or booleans. -/
inductive Toml where
  | table : List (String × Toml) → Toml
  | arr : List Toml → Toml
  | str : String → Toml
  | bool : Bool → Toml

/-- First-match association-list lookup, i.e. Python `dict.__getitem__` /
`dict.get` on a table's entry list. -/
def lookup : List (String × Toml) → String → Option Toml
  | [], _ => none
  | (k, v) :: rest, key => if k = key then some v else lookup rest key

/-- Python `dict.__setitem__` / `dict.update` for a single key: replace the
value at an existing key in place, otherwise append the new entry. -/
def setKey : List (String × Toml) → String → Toml → List (String × Toml)
  | [], key, v => [(key, v)]
  | (k, w) :: rest, key, v =>
    if k = key then (k, v) :: rest else (k, w) :: setKey rest key v

/-- Python `dict.__delitem__` / `tomlkit` `remove`: drop every entry with the
given key. -/
def removeKey (es : List (String × Toml)) (key : String) : List (String × Toml) :=
  es.filter (fun e => e.1 ≠ key)

/-- Python `mapping.get(key)` on a TOML value: `none` when the value is not
a table or the key is absent. -/
def Toml.get : Toml → String → Option Toml
  | .table es, key => lookup es key
  | _, _ => none

/-- Python truthiness of a TOML value (`if data:`): empty tables, empty
arrays, the empty string and `false` are falsy. -/
def Toml.truthy : Toml → Bool
  | .table es => !es.isEmpty
  | .arr xs => !xs.isEmpty
  | .str s => s ≠ ""
  | .bool b => b

/-- Whether a TOML value is a table (`isinstance(v, Mapping)`). -/
def Toml.isTable : Toml → Bool
  | .table _ => true
  | _ => false

/-- Read the table at a key path, `none` if any step is missing or not a
table.  Models reading `doc.table(k1, k2, ..., create=False)`. -/
def getTablePath : Toml → List String → Option (List (String × Toml))
  | .table es, [] => some es
  | .table es, k :: rest =>
    match lookup es k with
    | some sub => getTablePath sub rest
    | none => none
  | _, _ => none

/-- Write the table at a key path, creating missing intermediate tables.
Modelled from the spec: `PyProject.table(path..., create=True)` creates
missing intermediate tables and the mutated table handle writes back into
the document (`pyproject.py` is not among the given sources). -/
def setTablePath : Toml → List String → List (String × Toml) → Toml
  | _, [], tbl => .table tbl
  | .table es, k :: rest, tbl =>
    let sub := match lookup es k with
      | some s => s
      | none => .table []
    .table (setKey es k (setTablePath sub rest tbl))
  | _, k :: rest, tbl => .table [(k, setTablePath (.table []) rest tbl)]

/-- Remove the table at a key path when it is empty, cascading the removal
to parent tables that thereby become empty.  Modelled from the spec:
`prune()` removes a structurally empty source table and "pruning cascades
to empty parent tables it thereby creates, but never removes a table that
still holds sibling keys". -/
def prunePath : Toml → List String → Toml
  | t, [] => t
  | t, k :: rest =>
    match t with
    | .table es =>
      (match lookup es k with
       | some sub =>
         (match rest with
          | [] =>
            (match sub with
             | .table [] => Toml.table (removeKey es k)
             | _ => Toml.table es)
          | _ :: _ =>
            (match prunePath sub rest with
             | .table [] => Toml.table (removeKey es k)
             | sub' => Toml.table (setKey es k sub')))
       | none => .table es)
    | _ => t

/-- One project manifest: the directory holding its `pyproject.toml`
(`path.parent` as a component list) and the parsed document (a TOML
document is always a top-level table, kept as its entry list). -/
structure PyProject where
  dir : List String
  data : List (String × Toml)

/-- The workspace tree: root project, name-keyed member projects, the
root project's name, and the `filtered` view flag. -/
structure PyProjectTree where
  name : String
  root : PyProject
  members : List (String × PyProject)
  filtered : Bool

/-- A root-relative directory path as its list of components; `[]` is the
workspace root itself (Python `Path(".")`, whose `parent` is again `"."`). -/
abbrev Path := List String

/-- Python `pathlib.Path.parent` on component lists. -/
def parentDir (p : Path) : Path := p.dropLast

/-- Variant of `getTablePath` starting from a document's entry list. -/
def getTableEntries (es : List (String × Toml)) (ks : List String) :
    Option (List (String × Toml)) :=
  getTablePath (.table es) ks

/-- Variant of `setTablePath` starting from and returning a document's
entry list. -/
def setTableEntries (es : List (String × Toml)) :
    List String → List (String × Toml) → List (String × Toml)
  | [], tbl => tbl
  | k :: rest, tbl =>
    let sub := match lookup es k with
      | some s => s
      | none => .table []
    setKey es k (setTablePath sub rest tbl)

/-- The predicate scanned for inside the fixpoint loop of
`_sync_member_paths`: path `q`'s parent group is collapsible, i.e. the
parent is not the root and at least two paths of the working set share it
(the source's comparison of `children` against `expected` is a tautology —
every `c` with `c.parent == parent` satisfies `c == parent / c.name` — so
group size is the entire condition). -/
def collapsibleHere (S : List Path) (q : Path) : Bool :=
  decide (parentDir q ≠ [] ∧ 2 ≤ (S.filter (fun r => parentDir r = parentDir q)).length)

/-- Deterministic choice of the parent group collapsed next: the parent of
the first path of the working set whose group is collapsible.  The source
iterates `by_parent.items()` and `break`s on the first collapsible group;
its iteration order is Python hash/insertion order, so this is one fixed
refinement of that choice (order-dependence is treated via `CollapseStep`
below). -/
def findCollapsible (S : List Path) : Option Path :=
  (S.find? (collapsibleHere S)).map parentDir

/-- One collapsing step of the loop body (`rels -= children; rels.add(parent)`)
on a duplicate-free list representing the working set. -/
def collapseOnce (S : List Path) (p : Path) : List Path :=
  p :: S.filter (fun q => decide (parentDir q ≠ p ∧ q ≠ p))

theorem length_collapseOnce_lt {S : List Path} {p : Path}
    (h : findCollapsible S = some p) : (collapseOnce S p).length < S.length := by
  unfold findCollapsible at h
  cases hf : S.find? (collapsibleHere S) with
  | none => simp [hf] at h
  | some q =>
    rw [hf] at h
    simp only [Option.map_some', Option.some.injEq] at h
    subst h
    have hq := List.find?_some hf
    simp only [collapsibleHere, decide_eq_true_eq] at hq
    obtain ⟨-, hcard⟩ := hq
    unfold collapseOnce
    have hmono : List.Sublist
        (S.filter (fun q' => decide (parentDir q' ≠ parentDir q ∧ q' ≠ parentDir q)))
        (S.filter (fun r => !decide (parentDir r = parentDir q))) := by
      apply List.monotone_filter_right
      intro a ha
      simp only [decide_eq_true_eq] at ha
      simpa using ha.1
    have hsplit : (S.filter (fun r => decide (parentDir r = parentDir q))).length
        + (S.filter (fun r => !decide (parentDir r = parentDir q))).length = S.length := by
      simpa [List.countP_eq_length_filter] using
        (List.length_eq_countP_add_countP
          (p := fun r => decide (parentDir r = parentDir q)) S).symm
    have hle := hmono.length_le
    simp only [List.length_cons]
    omega

/-- The fixpoint loop of `_sync_member_paths` with explicit fuel: keep
collapsing the chosen parent group until no group is collapsible or the
fuel runs out. -/
def collapseAllFuel : Nat → List Path → List Path
  | 0, S => S
  | n + 1, S =>
    match findCollapsible S with
    | none => S
    | some p => collapseAllFuel n (collapseOnce S p)

/-- The fixpoint loop of `_sync_member_paths` (`while changed: ...`).  Each
collapse strictly shrinks the working set (`length_collapseOnce_lt`), so
`S.length` steps of fuel always reach the fixpoint; `findCollapsible_collapseAll`
below proves this bound exact, so this total function models the
unbounded `while` loop. -/
def collapseAll (S : List Path) : List Path :=
  collapseAllFuel S.length S

theorem findCollapsible_collapseAllFuel :
    ∀ (n : Nat) (S : List Path), S.length ≤ n →
      findCollapsible (collapseAllFuel n S) = none := by
  intro n
  induction n with
  | zero =>
    intro S hS
    have : S = [] := List.length_eq_zero.mp (Nat.le_zero.mp hS)
    subst this
    rfl
  | succ n ih =>
    intro S hS
    unfold collapseAllFuel
    cases h : findCollapsible S with
    | none => exact h
    | some p =>
      exact ih _ (Nat.le_of_lt_succ (Nat.lt_of_lt_of_le (length_collapseOnce_lt h) hS))

/-- The loop exit condition really holds of `collapseAll`'s result: no
group of the returned working set is still collapsible. -/
theorem findCollapsible_collapseAll (S : List Path) :
    findCollapsible (collapseAll S) = none :=
  findCollapsible_collapseAllFuel S.length S le_rfl

/-- `_sync_member_paths(root, paths)`: drop the root itself, require every
path to live under root, make paths root-relative, and run the collapsing
fixpoint.  Python set comprehensions become `dedup`ed lists. -/
def sync_member_paths_core (root : List String) (paths : List (List String)) :
    Except String (List Path) :=
  let paths1 := (paths.filter (fun p => p ≠ root)).dedup
  if paths1.all (fun p => root.isPrefixOf p) then
    .ok (collapseAll ((paths1.map (fun p => p.drop root.length)).dedup))
  else .error "All paths must be under root"

/-- Render a root-relative path the way `str(os.path.relpath(...))` does for
an already-relative normalized path (the empty path is `"."`). -/
def renderRel (p : Path) : String :=
  if p.isEmpty then "." else String.intercalate "/" p

/-- Whether a member path pattern is a wildcard pattern (`s.endswith("*")`,
i.e. its last character is `*`). -/
def isWildPattern (s : String) : Bool := s.data.getLast? = some '*'

/-- The sort order of `members.sort(key=lambda s: (not s.endswith("*"), s))`
as a boolean comparator: lexicographic on the key pair
`(not wildcard, text)` with `False < True`, so wildcard patterns sort
before exact ones and each group is ordered by its text. -/
def memberPatternLeB (a b : String) : Bool :=
  if isWildPattern a = isWildPattern b then decide (a ≤ b) else isWildPattern a

/-- Propositional form of `memberPatternLeB`. -/
def memberPatternLe (a b : String) : Prop := memberPatternLeB a b = true

instance : DecidableRel memberPatternLe := fun _ _ =>
  inferInstanceAs (Decidable (_ = true))

instance : IsTotal String memberPatternLe := by
  constructor
  intro a b
  unfold memberPatternLe memberPatternLeB
  by_cases h : isWildPattern a = isWildPattern b
  · rcases le_total a b with hab | hba
    · left; simp [h, hab]
    · right; simp [h.symm, hba]
  · cases ha : isWildPattern a <;> cases hb : isWildPattern b <;>
      simp_all

instance : IsTrans String memberPatternLe := by
  constructor
  intro a b c hab hbc
  unfold memberPatternLe memberPatternLeB at *
  cases ha : isWildPattern a <;> cases hb : isWildPattern b <;>
    cases hc : isWildPattern c <;> simp_all <;>
      exact le_trans hab hbc

/-- The pattern-list derivation of `sync_member_paths` (collapse, render each
surviving path as exact or wildcard depending on whether a manifest file
exists at it, then sort).  `fs` tells which absolute directories contain a
`pyproject.toml`; as in the source's entry point the process working
directory is the workspace root, so the relative existence check
`(dir / pyproject.FILE_NAME).exists()` resolves against `rootDir`. -/
def memberPathStrings (fs : List String → Bool) (rootDir : List String)
    (dirs : List (List String)) : Except String (List String) :=
  match sync_member_paths_core rootDir dirs with
  | .error e => .error e
  | .ok rels =>
    let members := rels.map (fun rel =>
      let member := renderRel rel
      if fs (rootDir ++ rel) then member else member ++ "/*")
    .ok (members.insertionSort memberPatternLe)

/-- The write-back step of `sync_member_paths` (lines 285–295): fetch or
create `tool.uv.workspace`, then replace, remove or insert the `members`
array.  Replacing the contents of the existing array object
(`clear()`/`extend(members)`) is modelled as setting the key to the new
array. -/
def writeMembers (memberStrs : List String) (data : List (String × Toml)) :
    List (String × Toml) :=
  let ks := ["tool", "uv", "workspace"]
  let wt := (getTableEntries data ks).getD []
  let wt' :=
    if (lookup wt "members").isSome then
      if !memberStrs.isEmpty then setKey wt "members" (.arr (memberStrs.map .str))
      else removeKey wt "members"
    else setKey wt "members" (.arr (memberStrs.map .str))
  setTableEntries data ks wt'

/-- `sync_member_paths(unfiltered_pyproject_tree)`: refuse filtered trees,
derive the pattern list from the member directories, write it into the
root document. -/
def sync_member_paths (fs : List String → Bool) (unfiltered : PyProjectTree) :
    Except String PyProjectTree :=
  if unfiltered.filtered then
    .error "Unfiltered workspace tree required for member path sync"
  else
    match memberPathStrings fs unfiltered.root.dir
        (unfiltered.members.map (fun m => m.2.dir)) with
    | .error e => .error e
    | .ok memberStrs =>
      .ok { unfiltered with
            root := { unfiltered.root with
                      data := writeMembers memberStrs unfiltered.root.data } }

mutual

/-- The value `mergedeep` stores at one key: when both the destination's
current value and the source value are tables, their recursive merge,
otherwise the source value (the `REPLACE` strategy). -/
def mergedValue (dv : Option Toml) (v : Toml) : Toml :=
  match dv, v with
  | some (.table dt), .table vt => Toml.table (mergeEntries dt vt)
  | _, _ => v
termination_by sizeOf v
decreasing_by simp_wf

/-- Recursive table merge of `mergedeep.merge(destination, source)` with its
default `REPLACE` strategy (external dependency of the source; spec §4.5
states the same rules): iterate the source's entries in order; when both the
destination's and the source's value at a key are tables, merge recursively,
otherwise the source value replaces the destination's. -/
def mergeEntries : List (String × Toml) → List (String × Toml) → List (String × Toml)
  | d, [] => d
  | d, (k, v) :: rest => mergeEntries (setKey d k (mergedValue (lookup d k) v)) rest
termination_by _ s => sizeOf s
decreasing_by all_goals simp_wf <;> omega

end

/-- Per-project body of `sync_version`: write `version` into the `project`
table unless it already holds that value; a project without a `project`
table is skipped.  The git-based default derivation (`_version`) is an
external subprocess query (spec §1/§6) and the version string is taken as
the explicit parameter the source also accepts; a non-table `project` value
(which would raise in Python) is modelled as a skip. -/
def sync_version_proj (version : String) (proj : PyProject) : PyProject :=
  match lookup proj.data "project" with
  | some (.table es) =>
    let skip : Bool := match lookup es "version" with
      | some (.str s) => decide (s = version)
      | _ => false
    if skip then proj
    else { proj with
           data := setKey proj.data "project"
             (.table (setKey es "version" (.str version))) }
  | _ => proj

/-- `sync_version(projs, version)` over the given projects. -/
def sync_version (projs : List PyProject) (version : String) : List PyProject :=
  projs.map (sync_version_proj version)

/-- `sync_build_system(pyproject_tree)`: when the root's `build-system`
value is truthy, deep-copy it over every member's `build-system` key
(`deepcopy` is the identity in this pure embedding). -/
def sync_build_system (tree : PyProjectTree) : PyProjectTree :=
  let data := (lookup tree.root.data "build-system").getD (.table [])
  if data.truthy then
    { tree with members := tree.members.map (fun m =>
        (m.1, { m.2 with data := setKey m.2.data "build-system" data })) }
  else tree

/-- `sync_member_project_tool(pyproject_tree)`: when the root's
`tool.member-project` value is truthy, `mergedeep.merge` it into every
member's document (a non-table value, which would raise inside
`mergedeep`, is modelled as a no-op). -/
def sync_member_project_tool (tree : PyProjectTree) : PyProjectTree :=
  let member_project_data :=
    (((lookup tree.root.data "tool").getD (.table [])).get "member-project").getD (.table [])
  if member_project_data.truthy then
    match member_project_data with
    | .table src =>
      { tree with members := tree.members.map (fun m =>
          (m.1, { m.2 with data := mergeEntries m.2.data src })) }
    | _ => tree
  else tree

/-- ASCII model of the regex class `\s` (Python whitespace). -/
def isSpaceChar (c : Char) : Bool :=
  c = ' ' || c = '\t' || c = '\n' || c = '\r' || c = '\x0b' || c = '\x0c'

/-- ASCII model of the regex class `[\w\-\.\[\]]` of
`_parse_dependency_name`. -/
def isDepNameChar (c : Char) : Bool :=
  c.isAlphanum || c = '_' || c = '-' || c = '.' || c = '[' || c = ']'

/-- The match attempt of `re.match(r"^\s*([\w\-\.\[\]]+)\s*@\s*file://", dep)`.
Because the name class and `\s` are disjoint and the regex is anchored,
greedy maximal munch with no backtracking is a complete decision procedure
for this pattern: skip leading spaces, read a maximal nonempty name run,
skip spaces, expect `@`, skip spaces, expect the literal `file://`. -/
def depNameMatch (dep : String) : Option String :=
  let cs := dep.data.dropWhile isSpaceChar
  let nm := cs.takeWhile isDepNameChar
  let rest := cs.dropWhile isDepNameChar
  if nm.isEmpty then none
  else
    match rest.dropWhile isSpaceChar with
    | '@' :: r3 =>
      if "file://".data.isPrefixOf (r3.dropWhile isSpaceChar) then some ⟨nm⟩
      else none
    | _ => none

/-- `_parse_dependency_name(dep)`: the matched name, or the dependency
string verbatim when the pattern does not match. -/
def parse_dependency_name (dep : String) : String :=
  (depNameMatch dep).getD dep

/-- Strip the longest common prefix of two component lists. -/
def dropCommonPrefix : List String → List String → List String × List String
  | a :: as, b :: bs =>
    if a = b then dropCommonPrefix as bs else (a :: as, b :: bs)
  | as, bs => (as, bs)

/-- `os.path.relpath(target, start)` on normalized absolute directories as
component lists: one `..` per remaining `start` component, then the
remaining `target` components. -/
def relpathList (target start : List String) : List String :=
  let ts := dropCommonPrefix target start
  ts.2.map (fun _ => "..") ++ ts.1

/-- `_member_dependency(member_proj, dep, dep_proj)`: format the rewritten
internal reference `dep @ file://${PROJECT_ROOT}/<relative-path>`. -/
def member_dependency (member_proj : PyProject) (dep : String) (dep_proj : PyProject) :
    String :=
  let relative_path := renderRel (relpathList dep_proj.dir member_proj.dir)
  dep ++ " @ file://$" ++ "{PROJECT_ROOT}/" ++ relative_path

/-- The managed source entry `{workspace: True}`. -/
def workspaceMarker : Toml := .table [("workspace", .bool true)]

/-- The survival test of the source-table cleanup: an entry is removed
exactly when its value carries `workspace = true` and its key is not among
this run's managed internal dependencies. -/
def keepSource (member_dependencies : List String) (e : String × Toml) : Bool :=
  match e.2.get "workspace" with
  | some (.bool true) => decide (e.1 ∈ member_dependencies)
  | _ => true

/-- The reconciliation of `tool.uv.sources` (lines 246–258): drop every
entry whose value carries `workspace = true` but whose key is not a managed
internal dependency of this run, then `update` a `{workspace: True}` entry
for every managed dependency (replacing whatever the key held). -/
def syncSources (member_dependencies : List String)
    (source_table : List (String × Toml)) : List (String × Toml) :=
  let cleaned := source_table.filter (keepSource member_dependencies)
  member_dependencies.foldl (fun acc dep => setKey acc dep workspaceMarker) cleaned

/-- The source-table phase of `_sync_member_project_dependencies`: fetch
`tool.uv.sources`, creating it only when there are managed dependencies;
when the node exists, reconcile it and prune it (and cascading empty
parents) when it ended up structurally empty. -/
def sourcesPass (member_dependencies : List String)
    (data : List (String × Toml)) : List (String × Toml) :=
  let ks := ["tool", "uv", "sources"]
  let node : Option (List (String × Toml)) :=
    match getTableEntries data ks with
    | some st => some st
    | none => if member_dependencies.isEmpty then none else some []
  match node with
  | none => data
  | some st =>
    let st' := syncSources member_dependencies st
    let data1 := setTableEntries data ks st'
    match prunePath (.table data1) ks with
    | .table es => es
    | _ => data1

/-- The dependency-rewriting loop of `_sync_member_project_dependencies`
(lines 231–240): for each dependency string, parse the candidate name,
resolve it against the root's name and the member mapping of the full tree,
and rewrite internal references, collecting the managed names in order. -/
def rewriteDeps (tree : PyProjectTree) (proj : PyProject) :
    List Toml → List Toml × List String
  | [] => ([], [])
  | x :: rest =>
    let r := rewriteDeps tree proj rest
    match x with
    | .str s =>
      let dep := parse_dependency_name s
      let dep_proj :=
        if dep = tree.name then some tree.root
        else (tree.members.find? (fun m => m.1 = dep)).map (fun m => m.2)
      match dep_proj with
      | some dp => (.str (member_dependency proj dep dp) :: r.1, dep :: r.2)
      | none => (.str s :: r.1, r.2)
    | other => (other :: r.1, r.2)

/-- `_sync_member_project_dependencies(pyproject_tree, proj)`: rewrite the
project's dependency array in place, then run the source-table phase with
the managed dependencies of this run (an empty or absent dependency array
skips the rewrite but still reconciles existing sources). -/
def sync_member_project_dependencies_proj (tree : PyProjectTree) (proj : PyProject) :
    PyProject :=
  match lookup proj.data "project" with
  | some (.table pes) =>
    (match lookup pes "dependencies" with
     | some (.arr xs) =>
       if xs.isEmpty then { proj with data := sourcesPass [] proj.data }
       else
         let r := rewriteDeps tree proj xs
         let data1 := setKey proj.data "project"
           (.table (setKey pes "dependencies" (.arr r.1)))
         { proj with data := sourcesPass r.2 data1 }
     | _ => { proj with data := sourcesPass [] proj.data })
  | _ => { proj with data := sourcesPass [] proj.data }

/-- `sync_member_project_dependencies(unfiltered_pyproject_tree,
pyproject_tree)`: refuse a filtered full tree, then run the per-project
rewrite for the root and every selected member, resolving names against the
full tree. -/
def sync_member_project_dependencies (unfiltered tree : PyProjectTree) :
    Except String PyProjectTree :=
  if unfiltered.filtered then
    .error "Unfiltered workspace tree required for member project dependencies sync"
  else
    .ok { tree with
          root := sync_member_project_dependencies_proj unfiltered tree.root,
          members := tree.members.map (fun m =>
            (m.1, sync_member_project_dependencies_proj unfiltered m.2)) }

/-- The children of `p` in the working set (`by_parent[parent]`). -/
def childrenF (S : Finset Path) (p : Path) : Finset Path :=
  S.filter (fun q => parentDir q = p)

/-- One collapse of the sibling group under `p` as a set operation
(`rels -= children; rels.add(parent)`). -/
def collapseAtF (S : Finset Path) (p : Path) : Finset Path :=
  S.filter (fun q => parentDir q ≠ p) ∪ {p}

/-- The loop body's guard for the group under `p`: the parent is not the
root and more than one path of the working set lies directly under it
(the source's `children == expected` comparison holds of every group by
construction, so the guard reduces to the group's size). -/
def Collapsible (S : Finset Path) (p : Path) : Prop :=
  p ≠ [] ∧ 2 ≤ (childrenF S p).card

/-- One iteration of the fixpoint loop of `_sync_member_paths`, with the
examined parent group chosen nondeterministically — Python dictionary
iteration order over `by_parent.items()` is not fixed by the source, so
every collapsible group is a possible next step. -/
def CollapseStep (S S' : Finset Path) : Prop :=
  ∃ p, Collapsible S p ∧ S' = collapseAtF S p

instance (S : Finset Path) (p : Path) : Decidable (Collapsible S p) := by
  unfold Collapsible
  infer_instance

/-- A workspace tree with `filtered = true`, as produced by
`filter_members`, used to exercise the filtered-tree guards. -/
def sampleFilteredTree : PyProjectTree :=
  { name := "root", root := { dir := ["r"], data := [] }, members := [], filtered := true }

/-- An unfiltered workspace tree with no members and an empty root
document. -/
def sampleEmptyTree : PyProjectTree :=
  { name := "root", root := { dir := ["r"], data := [] }, members := [], filtered := false }

/-- An unfiltered workspace tree whose root declares a `build-system` table
and whose single member `m` carries a `build-system` table with a
member-specific extra key. -/
def sampleBuildTree : PyProjectTree :=
  ⟨"root", ⟨["r"], [("build-system", .table [("requires", .str "hatchling")])]⟩,
    [("m", ⟨["r", "m"], [("build-system", .table [("extra", .str "keep")])]⟩)], false⟩

/-- An unfiltered workspace tree with one member project `a`. -/
def sampleDepTree : PyProjectTree :=
  ⟨"root", ⟨["r"], []⟩, [("a", ⟨["r", "a"], []⟩)], false⟩

/-- A project at `r/b` depending on member `a`, whose `tool.uv.sources`
entry for `a` is user-owned (it has no `workspace = true` marker). -/
def sampleProjB : PyProject :=
  ⟨["r", "b"],
    [("project", .table [("dependencies", .arr [.str "a"])]),
     ("tool", .table [("uv", .table
       [("sources", .table [("a", .table [("git", .str "x")])])])])]⟩

theorem lookup_setKey_self (es : List (String × Toml)) (k : String) (v : Toml) :
    lookup (setKey es k v) k = some v := by
  induction es with
  | nil => simp [setKey, lookup]
  | cons e rest ih =>
    by_cases h : e.1 = k
    · simp [setKey, h, lookup]
    · simp [setKey, h, lookup, ih]

theorem lookup_setKey_ne (es : List (String × Toml)) {k k' : String} (v : Toml)
    (h : k' ≠ k) : lookup (setKey es k v) k' = lookup es k' := by
  induction es with
  | nil => simp [setKey, lookup, Ne.symm h]
  | cons e rest ih =>
    by_cases he : e.1 = k
    · simp [setKey, he, lookup, Ne.symm h]
    · simp [setKey, he, lookup, ih]

theorem lookup_removeKey (es : List (String × Toml)) (k : String) :
    lookup (removeKey es k) k = none := by
  induction es with
  | nil => rfl
  | cons e rest ih =>
    by_cases h : e.1 = k
    · simpa [removeKey, h] using ih
    · simpa [removeKey, h, lookup] using ih

theorem getTablePath_setTablePath (t : Toml) (ks : List String)
    (tbl : List (String × Toml)) :
    getTablePath (setTablePath t ks tbl) ks = some tbl := by
  induction ks generalizing t with
  | nil => cases t <;> rfl
  | cons k rest ih =>
    cases t with
    | table es =>
      simp only [setTablePath, getTablePath, lookup_setKey_self]
      exact ih _
    | arr xs => simp only [setTablePath, getTablePath, lookup]; simp [ih]
    | str s => simp only [setTablePath, getTablePath, lookup]; simp [ih]
    | bool b => simp only [setTablePath, getTablePath, lookup]; simp [ih]

theorem getTableEntries_setTableEntries (es : List (String × Toml))
    (ks : List String) (tbl : List (String × Toml)) :
    getTableEntries (setTableEntries es ks tbl) ks = some tbl := by
  cases ks with
  | nil => rfl
  | cons k rest =>
    simp only [setTableEntries, getTableEntries, getTablePath, lookup_setKey_self]
    exact getTablePath_setTablePath _ _ _

theorem findCollapsible_some {S : List Path} {p : Path}
    (h : findCollapsible S = some p) :
    p ≠ [] ∧ 2 ≤ (S.filter (fun r => decide (parentDir r = p))).length := by
  unfold findCollapsible at h
  cases hf : S.find? (collapsibleHere S) with
  | none => simp [hf] at h
  | some q =>
    rw [hf] at h
    simp only [Option.map_some', Option.some.injEq] at h
    subst h
    have hq := List.find?_some hf
    simp only [collapsibleHere, decide_eq_true_eq] at hq
    exact hq

/-- C3: invoking dependency-reference rewrite or member-path derivation
with a full tree whose `filtered` flag is set fails immediately with the
source's `ValueError` (the guard is the functions' first statement, so the
error result models a raise before any node of either tree is mutated). -/
theorem claim_C3 (unfiltered tree : PyProjectTree) (fs : List String → Bool)
    (h : unfiltered.filtered = true) :
    sync_member_project_dependencies unfiltered tree =
      .error "Unfiltered workspace tree required for member project dependencies sync" ∧
    sync_member_paths fs unfiltered =
      .error "Unfiltered workspace tree required for member path sync" := by
  constructor
  · unfold sync_member_project_dependencies
    simp [h]
  · unfold sync_member_paths
    simp [h]

/-- Witness for C3 at a concrete filtered tree. -/
theorem claim_C3_witness :
    sampleFilteredTree.filtered = true ∧
    sync_member_project_dependencies sampleFilteredTree sampleFilteredTree =
      .error "Unfiltered workspace tree required for member project dependencies sync" ∧
    sync_member_paths (fun _ => false) sampleFilteredTree =
      .error "Unfiltered workspace tree required for member path sync" :=
  ⟨rfl,
    (claim_C3 sampleFilteredTree sampleFilteredTree (fun _ => false) rfl).1,
    (claim_C3 sampleFilteredTree sampleFilteredTree (fun _ => false) rfl).2⟩

/-- C7: version sync writes the target version into the `project` table of
every given project that has one, skips the write when the current value
already equals the target (so a second run with the same target changes
nothing), and leaves a project without a `project` table entirely
unchanged. -/
theorem claim_C7 (version : String) :
    (∀ projs, sync_version projs version = projs.map (sync_version_proj version)) ∧
    (∀ p es, lookup p.data "project" = some (.table es) →
      ∃ es', lookup (sync_version_proj version p).data "project" = some (.table es') ∧
        lookup es' "version" = some (.str version)) ∧
    (∀ p es, lookup p.data "project" = some (.table es) →
      lookup es "version" = some (.str version) → sync_version_proj version p = p) ∧
    (∀ p, sync_version_proj version (sync_version_proj version p) =
      sync_version_proj version p) ∧
    (∀ p, lookup p.data "project" = none → sync_version_proj version p = p) := by
  have hset : ∀ p es, lookup p.data "project" = some (.table es) →
      lookup es "version" ≠ some (.str version) →
      sync_version_proj version p =
        { p with data := (setKey p.data "project"
            (.table (setKey es "version" (.str version)))) } := by
    intro p es h hne
    unfold sync_version_proj
    rw [h]
    have : (match lookup es "version" with
        | some (.str s) => decide (s = version)
        | _ => false) = false := by
      cases hv : lookup es "version" with
      | none => rfl
      | some t =>
        cases t with
        | str s =>
          simp only [decide_eq_false_iff_not]
          intro hs
          exact hne (by rw [hv, hs])
        | table _ => rfl
        | arr _ => rfl
        | bool _ => rfl
    simp [this]
  have hskip : ∀ p es, lookup p.data "project" = some (.table es) →
      lookup es "version" = some (.str version) → sync_version_proj version p = p := by
    intro p es h hv
    unfold sync_version_proj
    rw [h]
    dsimp only
    rw [hv]
    simp
  refine ⟨fun _ => rfl, ?_, hskip, ?_, ?_⟩
  · intro p es h
    by_cases hv : lookup es "version" = some (.str version)
    · exact ⟨es, (hskip p es h hv).symm ▸ h, hv⟩
    · refine ⟨setKey es "version" (.str version), ?_, lookup_setKey_self ..⟩
      rw [hset p es h hv]
      exact lookup_setKey_self ..
  · intro p
    cases hp : lookup p.data "project" with
    | none =>
      have : sync_version_proj version p = p := by
        unfold sync_version_proj; rw [hp]
      rw [this, this]
    | some t =>
      cases t with
      | table es =>
        by_cases hv : lookup es "version" = some (.str version)
        · rw [hskip p es hp hv, hskip p es hp hv]
        · rw [hset p es hp hv]
          exact hskip _ _ (lookup_setKey_self ..) (lookup_setKey_self ..)
      | str s =>
        have : sync_version_proj version p = p := by
          unfold sync_version_proj; rw [hp]
        rw [this, this]
      | arr xs =>
        have : sync_version_proj version p = p := by
          unfold sync_version_proj; rw [hp]
        rw [this, this]
      | bool b =>
        have : sync_version_proj version p = p := by
          unfold sync_version_proj; rw [hp]
        rw [this, this]
  · intro p hp
    unfold sync_version_proj
    rw [hp]

/-- Witness for C7 at a concrete project carrying `project.version`. -/
theorem claim_C7_witness :
    ∃ es', lookup (sync_version_proj "1.2.3"
        ⟨["r", "m"], [("project", .table [("version", .str "0.0.0")])]⟩).data "project"
      = some (.table es') ∧ lookup es' "version" = some (.str "1.2.3") :=
  (claim_C7 "1.2.3").2.1 ⟨["r", "m"], [("project", .table [("version", .str "0.0.0")])]⟩
    [("version", .str "0.0.0")] rfl

/-- C10: every iteration of the collapsing fixpoint loop strictly decreases
the cardinality of the working set (it removes the at-least-two children of
the chosen parent and adds the single parent), so the loop is well-founded
on the set's cardinality and admits a total definition. -/
theorem claim_C10 (S S' : Finset Path) (h : CollapseStep S S') :
    S'.card < S.card := by
  obtain ⟨p, ⟨-, hcard⟩, rfl⟩ := h
  have hsplit := Finset.filter_card_add_filter_neg_card_eq_card
    (s := S) (p := fun q => parentDir q = p)
  have hchild : (childrenF S p).card ≤ S.card :=
    Finset.card_le_card (Finset.filter_subset _ _)
  have hunion := Finset.card_union_le
    (S.filter (fun q => parentDir q ≠ p)) ({p} : Finset Path)
  have hneg : (S.filter (fun q => parentDir q ≠ p)).card
      = (S.filter (fun q => ¬ parentDir q = p)).card := rfl
  unfold collapseAtF
  unfold childrenF at hcard hchild
  simp only [Finset.card_singleton] at hunion
  omega

/-- Witness for C10: a concrete collapse of the sibling pair
`a/x`, `a/y` into `a` shrinks the working set from two paths to one. -/
theorem claim_C10_witness :
    ({(["a"] : Path)} : Finset Path).card
      < ({(["a", "x"] : Path), ["a", "y"]} : Finset Path).card :=
  claim_C10 {["a", "x"], ["a", "y"]} {["a"]}
    ⟨["a"], ⟨by decide, by decide⟩, by decide⟩

/-- C1: refutation of the claimed order at the claim's own example.  For
member directories `libs/foo`, `libs/bar`, `libs/baz` (no manifest at
`libs`) and `apps/app1` (manifest present), derivation yields
`["libs/*", "apps/app1"]`, not `["apps/app1", "libs/*"]`: the sort key
`(not s.endswith("*"), s)` orders wildcard patterns first. -/
theorem claim_C1_counterexample :
    memberPathStrings
      (fun d => decide (d ∈ [["r", "libs", "foo"], ["r", "libs", "bar"],
        ["r", "libs", "baz"], ["r", "apps", "app1"], ["r"]]))
      ["r"]
      [["r", "libs", "foo"], ["r", "libs", "bar"], ["r", "libs", "baz"],
        ["r", "apps", "app1"]]
      = .ok ["libs/*", "apps/app1"] ∧
    (["libs/*", "apps/app1"] : List String) ≠ ["apps/app1", "libs/*"] :=
  ⟨rfl, by decide⟩

/-- C1 (amended): on the example the derivation emits exactly
`["libs/*", "apps/app1"]`, and in general the emitted pattern list is
sorted so that every wildcard pattern precedes every exact pattern and,
within each of the two groups, patterns are ordered lexicographically by
their text — the order `memberPatternLe`, under which a wildcard pattern
strictly precedes every exact pattern. -/
theorem claim_C1 :
    memberPathStrings
      (fun d => decide (d ∈ [["r", "libs", "foo"], ["r", "libs", "bar"],
        ["r", "libs", "baz"], ["r", "apps", "app1"], ["r"]]))
      ["r"]
      [["r", "libs", "foo"], ["r", "libs", "bar"], ["r", "libs", "baz"],
        ["r", "apps", "app1"]]
      = .ok ["libs/*", "apps/app1"] ∧
    (∀ (fs : List String → Bool) (root : List String) (dirs : List (List String))
        (out : List String), memberPathStrings fs root dirs = .ok out →
      List.Sorted memberPatternLe out) ∧
    (∀ a b : String, isWildPattern a = true → isWildPattern b = false →
      memberPatternLe a b ∧ ¬ memberPatternLe b a) := by
  refine ⟨rfl, ?_, ?_⟩
  · intro fs root dirs out h
    unfold memberPathStrings at h
    cases hc : sync_member_paths_core root dirs with
    | error e => rw [hc] at h; exact absurd h (by simp)
    | ok rels =>
      rw [hc] at h
      simp only [Except.ok.injEq] at h
      subst h
      exact List.sorted_insertionSort memberPatternLe _
  · intro a b ha hb
    constructor
    · unfold memberPatternLe memberPatternLeB
      simp [ha, hb]
    · unfold memberPatternLe memberPatternLeB
      simp [ha, hb]

/-- Witness for C1 at the example input: the emitted list is sorted by the
wildcard-first order. -/
theorem claim_C1_witness :
    List.Sorted memberPatternLe ["libs/*", "apps/app1"] :=
  claim_C1.2.1
    (fun d => decide (d ∈ [["r", "libs", "foo"], ["r", "libs", "bar"],
      ["r", "libs", "baz"], ["r", "apps", "app1"], ["r"]]))
    ["r"]
    [["r", "libs", "foo"], ["r", "libs", "bar"], ["r", "libs", "baz"],
      ["r", "apps", "app1"]]
    ["libs/*", "apps/app1"] rfl

/-- C2: refutation of the empty-list clause.  On an unfiltered tree with no
members and a root document that does not yet hold a member-path list, the
derived list is empty and member-path derivation nevertheless writes an
empty `tool.uv.workspace.members` array into the root document (the
removal branch only runs when the key already exists). -/
theorem claim_C2_counterexample :
    memberPathStrings (fun _ => false) ["r"] [] = .ok [] ∧
    (sync_member_paths (fun _ => false) sampleEmptyTree).map
        (fun t => lookup ((getTableEntries t.root.data
          ["tool", "uv", "workspace"]).getD []) "members")
      = .ok (some (.arr [])) :=
  ⟨rfl, rfl⟩

/-- C2 (amended): member-path derivation writes the derived ordered pattern
sequence into the root's `tool.uv.workspace.members` list; when the derived
list is empty and the key is already present the key is removed, but when
the key is absent the derived list — even an empty one — is written. -/
theorem claim_C2 :
    (∀ (fs : List String → Bool) (t : PyProjectTree) (strs : List String),
      t.filtered = false →
      memberPathStrings fs t.root.dir (t.members.map (fun m => m.2.dir)) = .ok strs →
      sync_member_paths fs t =
        .ok { t with root := { t.root with data := writeMembers strs t.root.data } }) ∧
    (∀ (strs : List String) (data : List (String × Toml)),
      lookup ((getTableEntries (writeMembers strs data)
          ["tool", "uv", "workspace"]).getD []) "members"
        = if (lookup ((getTableEntries data ["tool", "uv", "workspace"]).getD [])
              "members").isSome then
            (if strs.isEmpty then none else some (.arr (strs.map .str)))
          else some (.arr (strs.map .str))) := by
  constructor
  · intro fs t strs hf hm
    unfold sync_member_paths
    simp [hf, hm]
  · intro strs data
    unfold writeMembers
    rw [getTableEntries_setTableEntries]
    simp only [Option.getD_some]
    by_cases hp : (lookup ((getTableEntries data ["tool", "uv", "workspace"]).getD [])
        "members").isSome
    · by_cases he : strs.isEmpty
      · simp [hp, he, lookup_removeKey]
      · simp [hp, he, lookup_setKey_self]
    · simp [hp, lookup_setKey_self]

/-- Witness for C2 at the empty workspace: with the key absent and the
derived list empty, the written value is the empty array. -/
theorem claim_C2_witness :
    lookup ((getTableEntries (writeMembers [] [])
        ["tool", "uv", "workspace"]).getD []) "members" = some (.arr []) := by
  have h := claim_C2.2 [] []
  simpa using h

theorem lookup_mergeEntries_of_notMem :
    ∀ (s d : List (String × Toml)) (k : String), k ∉ s.map Prod.fst →
      lookup (mergeEntries d s) k = lookup d k := by
  intro s
  induction s with
  | nil => intro d k _; rw [mergeEntries]
  | cons e rest ih =>
    intro d k h
    obtain ⟨k0, v0⟩ := e
    simp only [List.map_cons, List.mem_cons, not_or] at h
    rw [mergeEntries, ih _ _ h.2]
    exact lookup_setKey_ne _ _ h.1

theorem lookup_mergeEntries_of_mem :
    ∀ (s d : List (String × Toml)) (k : String) (v : Toml),
      (s.map Prod.fst).Nodup → lookup s k = some v →
      lookup (mergeEntries d s) k = some (mergedValue (lookup d k) v) := by
  intro s
  induction s with
  | nil => intro d k v _ h; simp [lookup] at h
  | cons e rest ih =>
    intro d k v hnd hv
    obtain ⟨k0, v0⟩ := e
    simp only [List.map_cons, List.nodup_cons] at hnd
    by_cases hk : k0 = k
    · subst hk
      rw [lookup, if_pos rfl] at hv
      simp only [Option.some.injEq] at hv
      subst hv
      rw [mergeEntries, lookup_mergeEntries_of_notMem rest _ k0 hnd.1]
      exact lookup_setKey_self ..
    · rw [lookup, if_neg hk] at hv
      rw [mergeEntries, ih _ _ _ hnd.2 hv,
        lookup_setKey_ne d _ (fun hh : k = k0 => hk hh.symm)]

theorem lookup_eq_none_of_notMem (es : List (String × Toml)) (k : String)
    (h : k ∉ es.map Prod.fst) : lookup es k = none := by
  induction es with
  | nil => rfl
  | cons e rest ih =>
    simp only [List.map_cons, List.mem_cons, not_or] at h
    rw [lookup, if_neg (fun hh : e.1 = k => h.1 hh.symm)]
    exact ih h.2

theorem lookup_filter_of_true (p : String × Toml → Bool) :
    ∀ (es : List (String × Toml)) (k : String) (v : Toml), (es.map Prod.fst).Nodup →
      lookup es k = some v → p (k, v) = true → lookup (es.filter p) k = some v := by
  intro es
  induction es with
  | nil => intro k v _ h _; simp [lookup] at h
  | cons e rest ih =>
    intro k v hnd hv hp
    obtain ⟨a, b⟩ := e
    simp only [List.map_cons, List.nodup_cons] at hnd
    by_cases hk : a = k
    · subst hk
      rw [lookup, if_pos rfl] at hv
      simp only [Option.some.injEq] at hv
      subst hv
      rw [List.filter_cons, if_pos hp, lookup, if_pos rfl]
    · rw [lookup, if_neg hk] at hv
      have htail := ih k v hnd.2 hv hp
      rw [List.filter_cons]
      by_cases hpe : p (a, b) = true
      · rw [if_pos hpe, lookup, if_neg hk]
        exact htail
      · rw [if_neg hpe]
        exact htail

theorem lookup_filter_of_false (p : String × Toml → Bool) :
    ∀ (es : List (String × Toml)) (k : String) (v : Toml), (es.map Prod.fst).Nodup →
      lookup es k = some v → p (k, v) = false → lookup (es.filter p) k = none := by
  intro es
  induction es with
  | nil => intro k v _ h _; simp [lookup] at h
  | cons e rest ih =>
    intro k v hnd hv hp
    obtain ⟨a, b⟩ := e
    simp only [List.map_cons, List.nodup_cons] at hnd
    by_cases hk : a = k
    · subst hk
      rw [lookup, if_pos rfl] at hv
      simp only [Option.some.injEq] at hv
      subst hv
      rw [List.filter_cons, if_neg (by simp [hp])]
      apply lookup_eq_none_of_notMem
      intro hmem
      exact hnd.1 (((rest.filter_sublist).map Prod.fst).subset hmem)
    · rw [lookup, if_neg hk] at hv
      have htail := ih k v hnd.2 hv hp
      rw [List.filter_cons]
      by_cases hpe : p (a, b) = true
      · rw [if_pos hpe, lookup, if_neg hk]
        exact htail
      · rw [if_neg hpe]
        exact htail

theorem lookup_foldl_setKey (md : List String) :
    ∀ (acc : List (String × Toml)) (k : String),
      lookup (md.foldl (fun a d => setKey a d workspaceMarker) acc) k
        = if k ∈ md then some workspaceMarker else lookup acc k := by
  induction md with
  | nil => intro acc k; simp
  | cons d rest ih =>
    intro acc k
    rw [List.foldl_cons, ih]
    by_cases hk : k ∈ rest
    · simp [hk]
    · by_cases hkd : k = d
      · subst hkd
        simp [hk, lookup_setKey_self]
      · simp [hk, hkd, lookup_setKey_ne _ _ hkd]

theorem mem_keys_setKey (es : List (String × Toml)) (k k' : String) (v : Toml) :
    k' ∈ (setKey es k v).map Prod.fst ↔ k' ∈ es.map Prod.fst ∨ k' = k := by
  induction es with
  | nil => simp [setKey]
  | cons e rest ih =>
    obtain ⟨a, b⟩ := e
    by_cases he : a = k
    · subst he
      simp only [setKey, eq_self_iff_true, if_true, List.map_cons, List.mem_cons]
      tauto
    · simp only [setKey, if_neg he, List.map_cons, List.mem_cons, ih]
      tauto

theorem nodup_keys_setKey (es : List (String × Toml)) (k : String) (v : Toml)
    (h : (es.map Prod.fst).Nodup) : ((setKey es k v).map Prod.fst).Nodup := by
  induction es with
  | nil => simp [setKey]
  | cons e rest ih =>
    obtain ⟨a, b⟩ := e
    simp only [List.map_cons, List.nodup_cons] at h
    by_cases he : a = k
    · subst he
      simp only [setKey, eq_self_iff_true, if_true, List.map_cons, List.nodup_cons]
      exact ⟨h.1, h.2⟩
    · simp only [setKey, if_neg he, List.map_cons, List.nodup_cons]
      refine ⟨?_, ih h.2⟩
      rw [mem_keys_setKey]
      rintro (hmem | heq)
      · exact h.1 hmem
      · exact he heq

theorem nodup_keys_foldl_setKey (md : List String) :
    ∀ acc : List (String × Toml), (acc.map Prod.fst).Nodup →
      ((md.foldl (fun a d => setKey a d workspaceMarker) acc).map Prod.fst).Nodup := by
  induction md with
  | nil => intro acc h; exact h
  | cons d rest ih =>
    intro acc h
    rw [List.foldl_cons]
    exact ih _ (nodup_keys_setKey acc d workspaceMarker h)

theorem setKey_of_lookup_eq :
    ∀ (es : List (String × Toml)) (k : String) (v : Toml),
      lookup es k = some v → setKey es k v = es := by
  intro es
  induction es with
  | nil => intro k v h; simp [lookup] at h
  | cons e rest ih =>
    intro k v h
    obtain ⟨a, b⟩ := e
    by_cases hk : a = k
    · subst hk
      rw [lookup, if_pos rfl] at h
      simp only [Option.some.injEq] at h
      subst h
      rw [setKey, if_pos rfl]
    · rw [lookup, if_neg hk] at h
      rw [setKey, if_neg hk, ih k v h]

theorem getTablePath_prunePath_of_empty :
    ∀ (ks : List String) (t : Toml), ks ≠ [] → getTablePath t ks = some [] →
      getTablePath (prunePath t ks) ks = none := by
  intro ks
  induction ks with
  | nil => intro t h; exact absurd rfl h
  | cons k rest ih =>
    intro t _ hget
    cases t with
    | table es =>
      simp only [getTablePath] at hget
      cases hlk : lookup es k with
      | none =>
        rw [hlk] at hget
        exact absurd hget (by simp)
      | some sub =>
        simp only [hlk] at hget
        cases rest with
        | nil =>
          cases sub with
          | table ses =>
            simp only [getTablePath, Option.some.injEq] at hget
            subst hget
            rw [prunePath]
            simp only [hlk, getTablePath, lookup_removeKey]
          | arr xs => simp [getTablePath.eq_def] at hget
          | str s => simp [getTablePath.eq_def] at hget
          | bool b => simp [getTablePath.eq_def] at hget
        | cons r2 rrest =>
          have hih := ih sub (by simp) hget
          rw [prunePath]
          simp only [hlk]
          cases hpr : prunePath sub (r2 :: rrest) with
          | table pes =>
            cases pes with
            | nil => simp only [getTablePath, lookup_removeKey]
            | cons pe prest =>
              simp only [getTablePath, lookup_setKey_self]
              rw [hpr] at hih
              simpa only [getTablePath] using hih
          | arr xs => simp [getTablePath.eq_def, lookup_setKey_self]
          | str s => simp [getTablePath.eq_def, lookup_setKey_self]
          | bool b => simp [getTablePath.eq_def, lookup_setKey_self]
    | arr xs => simp [getTablePath.eq_def] at hget
    | str s => simp [getTablePath.eq_def] at hget
    | bool b => simp [getTablePath.eq_def] at hget

theorem prunePath_of_nonempty :
    ∀ (ks : List String) (t : Toml) (st' : List (String × Toml)),
      getTablePath t ks = some st' → st' ≠ [] → prunePath t ks = t := by
  intro ks
  induction ks with
  | nil => intro t st' _ _; rfl
  | cons k rest ih =>
    intro t st' hget hne
    cases t with
    | table es =>
      simp only [getTablePath] at hget
      cases hlk : lookup es k with
      | none =>
        rw [hlk] at hget
        exact absurd hget (by simp)
      | some sub =>
        simp only [hlk] at hget
        cases rest with
        | nil =>
          cases sub with
          | table ses =>
            simp only [getTablePath, Option.some.injEq] at hget
            subst hget
            rw [prunePath]
            simp only [hlk]
            cases ses with
            | nil => exact absurd rfl hne
            | cons e es' => rfl
          | arr xs => simp [getTablePath.eq_def] at hget
          | str s => simp [getTablePath.eq_def] at hget
          | bool b => simp [getTablePath.eq_def] at hget
        | cons r2 rrest =>
          have hih := ih sub st' hget hne
          rw [prunePath]
          simp only [hlk, hih]
          cases sub with
          | table ses =>
            cases ses with
            | nil =>
              simp only [getTablePath, lookup] at hget
              exact absurd hget (by simp)
            | cons se ses' =>
              have hsk := setKey_of_lookup_eq es k _ hlk
              simp only [hsk]
          | arr xs => simp [getTablePath.eq_def] at hget
          | str s => simp [getTablePath.eq_def] at hget
          | bool b => simp [getTablePath.eq_def] at hget
    | arr xs => simp [getTablePath.eq_def] at hget
    | str s => simp [getTablePath.eq_def] at hget
    | bool b => simp [getTablePath.eq_def] at hget

theorem prunePath_table (es : List (String × Toml)) (ks : List String) :
    ∃ es', prunePath (.table es) ks = .table es' := by
  cases ks with
  | nil => exact ⟨es, rfl⟩
  | cons k rest =>
    rw [prunePath]
    repeat' split
    all_goals exact ⟨_, rfl⟩

theorem takeWhile_append_stop {p : Char → Bool} :
    ∀ (l : List Char) (c : Char) (r : List Char),
      (∀ x ∈ l, p x = true) → p c = false →
      (l ++ c :: r).takeWhile p = l ∧ (l ++ c :: r).dropWhile p = c :: r := by
  intro l
  induction l with
  | nil =>
    intro c r _ hc
    simp [List.takeWhile_cons, List.dropWhile_cons, hc]
  | cons a l ih =>
    intro c r hall hc
    have ha : p a = true := hall a (List.mem_cons_self a l)
    have htail := ih c r (fun x hx => hall x (List.mem_cons_of_mem a hx)) hc
    simp only [List.cons_append, List.takeWhile_cons, List.dropWhile_cons, ha,
      if_true, htail.1, htail.2, and_self]

theorem space_not_depNameChar {c : Char} (h : isSpaceChar c = true) :
    isDepNameChar c = false := by
  unfold isSpaceChar at h
  simp only [Bool.or_eq_true, decide_eq_true_eq] at h
  rcases h with ((((h | h) | h) | h) | h) | h <;> subst h <;> rfl

theorem parse_roundtrip (name tail : String) (h1 : name ≠ "")
    (h2 : ∀ c ∈ name.data, isDepNameChar c = true) :
    parse_dependency_name (name ++ " @ file://" ++ tail) = name := by
  obtain ⟨nd⟩ := name
  cases nd with
  | nil => exact absurd rfl h1
  | cons nc ntail =>
    have hnc : isDepNameChar nc = true := h2 nc (List.mem_cons_self nc ntail)
    have hncs : isSpaceChar nc = false := by
      cases hs : isSpaceChar nc with
      | false => rfl
      | true => rw [space_not_depNameChar hs] at hnc; exact absurd hnc (by simp)
    have hdata : ((⟨nc :: ntail⟩ : String) ++ " @ file://" ++ tail).data
        = nc :: (ntail ++ (' ' :: '@' :: ' ' :: ("file://".data ++ tail.data))) := by
      simp [String.data_append, List.append_assoc]
    unfold parse_dependency_name depNameMatch
    rw [hdata]
    rw [List.dropWhile_cons, hncs]
    simp only [Bool.false_eq_true, if_false]
    have hstop := takeWhile_append_stop (p := isDepNameChar) (nc :: ntail) ' '
      ('@' :: ' ' :: ("file://".data ++ tail.data)) h2 rfl
    rw [show nc :: (ntail ++ (' ' :: '@' :: ' ' :: ("file://".data ++ tail.data)))
        = (nc :: ntail) ++ (' ' :: '@' :: ' ' :: ("file://".data ++ tail.data))
      from rfl]
    rw [hstop.1, hstop.2]
    simp only [List.isEmpty_cons, Bool.false_eq_true, if_false]
    rw [List.dropWhile_cons]
    simp only [show isSpaceChar ' ' = true from rfl, if_true]
    rw [List.dropWhile_cons]
    simp only [show isSpaceChar '@' = false from rfl, Bool.false_eq_true, if_false]
    rw [List.dropWhile_cons]
    simp only [show isSpaceChar ' ' = true from rfl, if_true]
    have hfile : ("file://".data).dropWhile isSpaceChar
        ++ tail.data = "file://".data ++ tail.data := rfl
    rw [show ("file://".data ++ tail.data).dropWhile isSpaceChar
        = "file://".data ++ tail.data by rfl]
    rw [show ("file://".data.isPrefixOf ("file://".data ++ tail.data)) = true from
      List.isPrefixOf_iff_prefix.mpr (List.prefix_append _ _)]
    rfl

theorem notMem_root_collapseAllFuel :
    ∀ (n : Nat) (S : List Path), [] ∉ S → [] ∉ collapseAllFuel n S := by
  intro n
  induction n with
  | zero => intro S h; exact h
  | succ n ih =>
    intro S h
    unfold collapseAllFuel
    cases hf : findCollapsible S with
    | none => exact h
    | some p =>
      apply ih
      intro hmem
      rcases List.mem_cons.mp hmem with he | hfil
      · exact (findCollapsible_some hf).1 he.symm
      · exact h (List.mem_of_mem_filter hfil)

/-- C9: the collapsing algorithm never returns the workspace root itself:
the root is excluded from the working set at the start, no sibling group is
ever collapsed into the root (the `parent == Path(".")` guard), and a
single member directly under root survives as itself rather than becoming
the root path. -/
theorem claim_C9 :
    (∀ S : List Path, [] ∉ S → [] ∉ collapseAll S) ∧
    (∀ (root : List String) (dirs : List (List String)) (out : List Path),
      sync_member_paths_core root dirs = .ok out → [] ∉ out) ∧
    (∀ (root : List String) (x : String),
      sync_member_paths_core root [root ++ [x]] = .ok [[x]]) := by
  have hall : ∀ S : List Path, [] ∉ S → [] ∉ collapseAll S :=
    fun S h => notMem_root_collapseAllFuel S.length S h
  refine ⟨hall, ?_, ?_⟩
  · intro root dirs out h
    unfold sync_member_paths_core at h
    dsimp only at h
    split at h
    case isTrue hcond =>
      simp only [Except.ok.injEq] at h
      subst h
      apply hall
      intro hmem
      have hmem' := List.mem_dedup.mp hmem
      obtain ⟨p, hp, hdrop⟩ := List.mem_map.mp hmem'
      have hpne : p ≠ root := by
        have := List.of_mem_filter (List.mem_dedup.mp hp)
        simpa using this
      have hpre : root.isPrefixOf p = true :=
        List.all_eq_true.mp hcond p hp
      obtain ⟨t, rfl⟩ := List.isPrefixOf_iff_prefix.mp hpre
      rw [List.drop_left] at hdrop
      exact hpne (by rw [hdrop, List.append_nil])
    case isFalse => exact absurd h (by simp)
  · intro root x
    unfold sync_member_paths_core
    have hne : ¬ (root ++ [x] = root) := by
      intro h
      have := congrArg List.length h
      simp at this
    have hpre : root.isPrefixOf (root ++ [x]) = true :=
      List.isPrefixOf_iff_prefix.mpr (List.prefix_append root [x])
    simp [hne, hpre, List.drop_left, List.dedup_cons_of_not_mem,
      collapseAll, collapseAllFuel, findCollapsible, collapsibleHere, parentDir]

/-- Witness for C9: the root path is absent from the collapse of the
example working set, from the derived pattern set of the example workspace,
and a single member `m` directly under root `r` survives as itself. -/
theorem claim_C9_witness :
    ([] ∉ collapseAll [["libs", "foo"], ["libs", "bar"]]) ∧
    (([] : Path) ∉ [[("m" : String)]]) ∧
    sync_member_paths_core ["r"] [["r", "m"]] = .ok [["m"]] := by
  refine ⟨claim_C9.1 _ (by decide), ?_, claim_C9.2.2 ["r"] "m"⟩
  exact claim_C9.2.1 ["r"] [["r", "m"]] [["m"]] (claim_C9.2.2 ["r"] "m")

/-- C6: build-system propagation and tool-settings merge differ as
specified.  When the root's `build-system` value is truthy, every member's
`build-system` key is replaced wholesale by the root's value (wiping any
member-specific keys); when it is absent or empty the tree is unchanged.
Tool-settings merge applies `mergedeep` to the root's
`tool.member-project` table: a key absent from the source keeps the
member's value, a key present in both recurses when both values are tables
(`mergedValue`), and a non-table source value replaces the member's
value. -/
theorem claim_C6 :
    (∀ (t : PyProjectTree) (bs : Toml), lookup t.root.data "build-system" = some bs →
      bs.truthy = true →
      (sync_build_system t).members = t.members.map (fun m =>
        (m.1, { m.2 with data := setKey m.2.data "build-system" bs })) ∧
      ∀ m ∈ (sync_build_system t).members, lookup m.2.data "build-system" = some bs) ∧
    (∀ t : PyProjectTree,
      ((lookup t.root.data "build-system").getD (.table [])).truthy = false →
      sync_build_system t = t) ∧
    (∀ (t : PyProjectTree) (src : List (String × Toml)),
      (((lookup t.root.data "tool").getD (.table [])).get "member-project").getD
          (.table []) = .table src → src ≠ [] →
      (sync_member_project_tool t).members = t.members.map (fun m =>
        (m.1, { m.2 with data := mergeEntries m.2.data src }))) ∧
    (∀ (s d : List (String × Toml)) (k : String), k ∉ s.map Prod.fst →
      lookup (mergeEntries d s) k = lookup d k) ∧
    (∀ (s d : List (String × Toml)) (k : String) (v : Toml),
      (s.map Prod.fst).Nodup → lookup s k = some v →
      lookup (mergeEntries d s) k = some (mergedValue (lookup d k) v)) ∧
    (∀ (dt vt : List (String × Toml)),
      mergedValue (some (.table dt)) (.table vt) = .table (mergeEntries dt vt)) ∧
    (∀ (dv : Option Toml) (v : Toml), v.isTable = false → mergedValue dv v = v) := by
  refine ⟨?_, ?_, ?_, lookup_mergeEntries_of_notMem, lookup_mergeEntries_of_mem,
    ?_, ?_⟩
  · intro t bs h htr
    have hmem : (sync_build_system t).members = t.members.map (fun m =>
        (m.1, { m.2 with data := setKey m.2.data "build-system" bs })) := by
      unfold sync_build_system
      rw [h]
      simp only [Option.getD_some, htr, if_true]
    refine ⟨hmem, ?_⟩
    intro m hm
    rw [hmem] at hm
    obtain ⟨m0, -, rfl⟩ := List.mem_map.mp hm
    exact lookup_setKey_self ..
  · intro t htr
    unfold sync_build_system
    dsimp only
    rw [htr]
    simp
  · intro t src h hne
    unfold sync_member_project_tool
    rw [h]
    dsimp only
    have : Toml.truthy (.table src) = true := by
      simpa [Toml.truthy] using hne
    rw [this]
    simp
  · intro dt vt
    rw [mergedValue]
  · intro dv v hv
    cases v with
    | table es => simp [Toml.isTable] at hv
    | arr xs =>
      rw [mergedValue.eq_def]
      cases dv with
      | none => rfl
      | some t => cases t <;> rfl
    | str s =>
      rw [mergedValue.eq_def]
      cases dv with
      | none => rfl
      | some t => cases t <;> rfl
    | bool b =>
      rw [mergedValue.eq_def]
      cases dv with
      | none => rfl
      | some t => cases t <;> rfl

/-- Witness for C6: a member's pre-existing `build-system` table with an
extra key is wholly replaced by the root's, while the tool-settings merge
keeps a member key that the propagated table does not mention. -/
theorem claim_C6_witness :
    (sync_build_system sampleBuildTree).members
      = [("m", ⟨["r", "m"], [("build-system", .table [("requires", .str "hatchling")])]⟩)] ∧
    lookup (mergeEntries [("memberOnly", .str "v")] [("shared", .str "w")]) "memberOnly"
      = some (.str "v") := by
  constructor
  · have h := (claim_C6.1 sampleBuildTree
      (.table [("requires", .str "hatchling")]) rfl rfl).1
    rw [h]
    rfl
  · have h := claim_C6.2.2.2.1 [("shared", .str "w")] [("memberOnly", .str "v")]
      "memberOnly" (by decide)
    rw [h]
    rfl

theorem childrenF_toFinset (S : List Path) (p : Path) :
    childrenF S.toFinset p = (S.filter (fun r => decide (parentDir r = p))).toFinset := by
  ext q
  simp [childrenF, List.mem_filter]

theorem card_childrenF_toFinset {S : List Path} (hnd : S.Nodup) (p : Path) :
    (childrenF S.toFinset p).card
      = (S.filter (fun r => decide (parentDir r = p))).length := by
  rw [childrenF_toFinset]
  exact List.toFinset_card_of_nodup (hnd.filter _)

theorem nodup_collapseOnce {S : List Path} (h : S.Nodup) (p : Path) :
    (collapseOnce S p).Nodup := by
  unfold collapseOnce
  refine List.nodup_cons.mpr ⟨?_, h.filter _⟩
  intro hmem
  have := List.of_mem_filter hmem
  simp at this

theorem toFinset_collapseOnce (S : List Path) (p : Path) :
    (collapseOnce S p).toFinset = collapseAtF S.toFinset p := by
  ext q
  simp only [collapseOnce, collapseAtF, List.toFinset_cons, Finset.mem_insert,
    List.mem_toFinset, List.mem_filter, Finset.mem_union, Finset.mem_filter,
    Finset.mem_singleton, decide_eq_true_eq]
  by_cases hq : q = p
  · subst hq; tauto
  · tauto

theorem step_of_findCollapsible {S : List Path} {p : Path} (hnd : S.Nodup)
    (h : findCollapsible S = some p) :
    CollapseStep S.toFinset (collapseOnce S p).toFinset := by
  obtain ⟨hp, hlen⟩ := findCollapsible_some h
  refine ⟨p, ⟨hp, ?_⟩, toFinset_collapseOnce S p⟩
  rw [card_childrenF_toFinset hnd]
  exact hlen

theorem stuck_of_findCollapsible_none {S : List Path} (hnd : S.Nodup)
    (h : findCollapsible S = none) : ∀ T, ¬ CollapseStep S.toFinset T := by
  rintro T ⟨p, ⟨hp, hcard⟩, -⟩
  have hnone : S.find? (collapsibleHere S) = none := by
    unfold findCollapsible at h
    cases hf : S.find? (collapsibleHere S) with
    | none => rfl
    | some q => rw [hf] at h; simp at h
  have hall := List.find?_eq_none.mp hnone
  rw [card_childrenF_toFinset hnd] at hcard
  have hpos : 0 < (S.filter (fun r => decide (parentDir r = p))).length := by omega
  obtain ⟨q, hq⟩ := List.exists_mem_of_length_pos hpos
  have hqS := List.mem_of_mem_filter hq
  have hqp : parentDir q = p := by
    have := List.of_mem_filter hq
    simpa using this
  have := hall q hqS
  rw [collapsibleHere] at this
  simp only [decide_eq_true_eq, not_and, not_le, ne_eq, Decidable.not_not] at this
  rcases Decidable.em (parentDir q = []) with hroot | hroot
  · exact hp (hqp ▸ hroot)
  · have hlt := by
      simpa [hroot] using this
    rw [hqp] at hlt
    omega

theorem nodup_collapseAllFuel :
    ∀ (n : Nat) (S : List Path), S.Nodup → (collapseAllFuel n S).Nodup := by
  intro n
  induction n with
  | zero => intro S h; exact h
  | succ n ih =>
    intro S h
    unfold collapseAllFuel
    cases hf : findCollapsible S with
    | none => exact h
    | some p => exact ih _ (nodup_collapseOnce h p)

theorem reflTransGen_collapseAllFuel :
    ∀ (n : Nat) (S : List Path), S.Nodup →
      Relation.ReflTransGen CollapseStep S.toFinset (collapseAllFuel n S).toFinset := by
  intro n
  induction n with
  | zero => intro S _; exact Relation.ReflTransGen.refl
  | succ n ih =>
    intro S h
    unfold collapseAllFuel
    cases hf : findCollapsible S with
    | none => exact Relation.ReflTransGen.refl
    | some p =>
      exact Relation.ReflTransGen.head (step_of_findCollapsible h hf)
        (ih _ (nodup_collapseOnce h p))

theorem isStuck_of_small {S : Finset Path} (h : S.card ≤ 1) :
    ∀ T, ¬ CollapseStep S T := by
  rintro T ⟨p, ⟨-, hc⟩, -⟩
  have := Finset.card_filter_le S (fun q => parentDir q = p)
  unfold childrenF at hc
  omega

/-- C4: the dependency round trip.  Rewriting project `b`'s dependency on
workspace member `a` (both under `packages/`) yields exactly
`a @ file://${PROJECT_ROOT}/../a`; the dependency-name parse of every
string the rewriter produces recovers the original name, for every nonempty
name over the rewriter's name alphabet (word characters, hyphens, dots and
brackets); and a string the pattern does not match is returned verbatim. -/
theorem claim_C4 :
    member_dependency ⟨["ws", "packages", "b"], []⟩ "a" ⟨["ws", "packages", "a"], []⟩
      = "a @ file://$" ++ "{PROJECT_ROOT}/../a" ∧
    parse_dependency_name (member_dependency ⟨["ws", "packages", "b"], []⟩ "a"
      ⟨["ws", "packages", "a"], []⟩) = "a" ∧
    (∀ (name : String) (member_proj dep_proj : PyProject), name ≠ "" →
      (∀ c ∈ name.data, isDepNameChar c = true) →
      parse_dependency_name (member_dependency member_proj name dep_proj) = name) ∧
    (∀ s : String, depNameMatch s = none → parse_dependency_name s = s) := by
  have hsplit : ∀ (name : String) (member_proj dep_proj : PyProject),
      member_dependency member_proj name dep_proj
        = name ++ " @ file://"
          ++ ("$" ++ "{PROJECT_ROOT}/" ++ renderRel (relpathList dep_proj.dir member_proj.dir)) := by
    intro name m d
    unfold member_dependency
    apply String.ext
    simp [List.append_assoc]
  have hgen : ∀ (name : String) (member_proj dep_proj : PyProject), name ≠ "" →
      (∀ c ∈ name.data, isDepNameChar c = true) →
      parse_dependency_name (member_dependency member_proj name dep_proj) = name := by
    intro name m d h1 h2
    rw [hsplit]
    exact parse_roundtrip name _ h1 h2
  refine ⟨rfl, ?_, hgen, ?_⟩
  · exact hgen "a" ⟨["ws", "packages", "b"], []⟩ ⟨["ws", "packages", "a"], []⟩
      (by decide) (by decide)
  · intro s h
    unfold parse_dependency_name
    rw [h]
    rfl

/-- Witness for C4: the parse of the concrete rewritten string and of a
plain dependency string, with the round-trip hypotheses discharged at the
name `my-proj.x`. -/
theorem claim_C4_witness :
    parse_dependency_name (member_dependency ⟨["r", "b"], []⟩ "my-proj.x"
      ⟨["r", "a"], []⟩) = "my-proj.x" ∧
    parse_dependency_name "requests" = "requests" := by
  constructor
  · exact claim_C4.2.2.1 "my-proj.x" ⟨["r", "b"], []⟩ ⟨["r", "a"], []⟩
      (by decide) (by decide)
  · exact claim_C4.2.2.2 "requests" rfl

/-- C5: refutation of the untouched-entries clause at a concrete project.
Project `b` depends on member `a` and carries a user-owned
`tool.uv.sources.a` entry without the `workspace = true` marker; after the
rewrite the entry's value has been replaced by `{workspace = true}` (its
`git` key is gone), although the claim says entries lacking the marker are
left byte-for-byte unchanged regardless of whether their key matches a
dependency. -/
theorem claim_C5_counterexample :
    Toml.get (.table [("git", .str "x")]) "workspace" ≠ some (.bool true) ∧
    getTableEntries sampleProjB.data ["tool", "uv", "sources"]
      = some [("a", .table [("git", .str "x")])] ∧
    getTableEntries (sync_member_project_dependencies_proj sampleDepTree
        sampleProjB).data ["tool", "uv", "sources"]
      = some [("a", .table [("workspace", .bool true)])] ∧
    Toml.get (.table [("workspace", .bool true)]) "git"
      ≠ Toml.get (.table [("git", .str "x")]) "git" :=
  ⟨by simp [Toml.get, lookup], rfl, rfl, by simp [Toml.get, lookup]⟩

/-- C5 (amended): after the source-table reconciliation with the managed
internal dependencies of the run, every entry carrying `workspace = true`
whose key is not managed is removed; every managed dependency holds exactly
the entry `{workspace = true}` (key uniqueness is preserved); an entry
without the marker whose key is **not** managed is unchanged — but an
unmarked entry whose key is managed is overwritten with `{workspace =
true}`; and the `tool.uv.sources` table is pruned from the document when
the reconciled table is structurally empty, and kept with exactly the
reconciled entries otherwise. -/
theorem claim_C5 :
    (∀ (md : List String) (st : List (String × Toml)) (k : String) (v : Toml),
      (st.map Prod.fst).Nodup → lookup st k = some v →
      v.get "workspace" = some (.bool true) → k ∉ md →
      lookup (syncSources md st) k = none) ∧
    (∀ (md : List String) (st : List (String × Toml)) (k : String),
      k ∈ md → lookup (syncSources md st) k = some workspaceMarker) ∧
    (∀ (md : List String) (st : List (String × Toml)) (k : String) (v : Toml),
      (st.map Prod.fst).Nodup → lookup st k = some v →
      v.get "workspace" ≠ some (.bool true) → k ∉ md →
      lookup (syncSources md st) k = some v) ∧
    (∀ (md : List String) (st : List (String × Toml)),
      (st.map Prod.fst).Nodup → ((syncSources md st).map Prod.fst).Nodup) ∧
    (∀ (md : List String) (data st : List (String × Toml)),
      getTableEntries data ["tool", "uv", "sources"] = some st →
      syncSources md st = [] →
      getTableEntries (sourcesPass md data) ["tool", "uv", "sources"] = none) ∧
    (∀ (md : List String) (data st : List (String × Toml)),
      getTableEntries data ["tool", "uv", "sources"] = some st →
      syncSources md st ≠ [] →
      getTableEntries (sourcesPass md data) ["tool", "uv", "sources"]
        = some (syncSources md st)) := by
  have hkeep_false : ∀ (md : List String) (k : String) (v : Toml),
      v.get "workspace" = some (.bool true) → k ∉ md →
      keepSource md (k, v) = false := by
    intro md k v hv hk
    unfold keepSource
    rw [hv]
    simpa using hk
  have hkeep_true : ∀ (md : List String) (k : String) (v : Toml),
      v.get "workspace" ≠ some (.bool true) → keepSource md (k, v) = true := by
    intro md k v hv
    unfold keepSource
    cases hw : v.get "workspace" with
    | none => rfl
    | some t =>
      cases t with
      | bool b =>
        cases b with
        | false => rfl
        | true => exact absurd hw hv
      | table es => rfl
      | arr xs => rfl
      | str s => rfl
  refine ⟨?_, ?_, ?_, ?_, ?_, ?_⟩
  · intro md st k v hnd hv hw hk
    unfold syncSources
    rw [lookup_foldl_setKey]
    rw [if_neg hk]
    exact lookup_filter_of_false _ st k v hnd hv (hkeep_false md k v hw hk)
  · intro md st k hk
    unfold syncSources
    rw [lookup_foldl_setKey, if_pos hk]
  · intro md st k v hnd hv hw hk
    unfold syncSources
    rw [lookup_foldl_setKey, if_neg hk]
    exact lookup_filter_of_true _ st k v hnd hv (hkeep_true md k v hw)
  · intro md st hnd
    unfold syncSources
    apply nodup_keys_foldl_setKey
    exact ((st.filter_sublist).map Prod.fst).nodup hnd
  · intro md data st hget hempty
    unfold sourcesPass
    simp only [hget, hempty]
    have hset := getTableEntries_setTableEntries data ["tool", "uv", "sources"]
      (syncSources md st)
    rw [hempty] at hset
    obtain ⟨es', hpr⟩ := prunePath_table
      (setTableEntries data ["tool", "uv", "sources"] []) ["tool", "uv", "sources"]
    rw [hpr]
    have := getTablePath_prunePath_of_empty ["tool", "uv", "sources"]
      (.table (setTableEntries data ["tool", "uv", "sources"] [])) (by simp) hset
    rw [hpr] at this
    exact this
  · intro md data st hget hne
    unfold sourcesPass
    simp only [hget]
    have hset := getTableEntries_setTableEntries data ["tool", "uv", "sources"]
      (syncSources md st)
    have hpr := prunePath_of_nonempty ["tool", "uv", "sources"]
      (.table (setTableEntries data ["tool", "uv", "sources"] (syncSources md st)))
      (syncSources md st) hset hne
    rw [hpr]
    exact hset

/-- Witness for C5: reconciling sources `{b: {workspace = true}, c: {x =
"y"}}` with managed set `{a}` removes the stale managed entry `b`, adds the
marker entry for `a`, keeps the user-owned entry `c`, and a document whose
reconciled source table is empty loses the `tool.uv.sources` table. -/
theorem claim_C5_witness :
    lookup (syncSources ["a"] [("b", workspaceMarker), ("c", .table [("x", .str "y")])])
        "b" = none ∧
    lookup (syncSources ["a"] [("b", workspaceMarker), ("c", .table [("x", .str "y")])])
        "a" = some workspaceMarker ∧
    lookup (syncSources ["a"] [("b", workspaceMarker), ("c", .table [("x", .str "y")])])
        "c" = some (.table [("x", .str "y")]) ∧
    getTableEntries (sourcesPass []
        [("tool", .table [("uv", .table [("sources", .table [("b", workspaceMarker)])])])])
        ["tool", "uv", "sources"] = none := by
  refine ⟨?_, ?_, ?_, ?_⟩
  · exact claim_C5.1 ["a"] _ "b" workspaceMarker (by decide) rfl rfl (by decide)
  · exact claim_C5.2.1 ["a"] _ "a" (by decide)
  · exact claim_C5.2.2.1 ["a"] _ "c" (.table [("x", .str "y")]) (by decide) rfl
      (by simp [Toml.get, lookup]) (by decide)
  · exact claim_C5.2.2.2.2.1 [] _ [("b", workspaceMarker)] rfl rfl

/-- C8: refutation of order-independence.  From the working set
`{a/b, a/c, a/b/x, a/b/y}` the collapsing loop can reach two different
fixpoints, depending on which collapsible parent group it examines first:
collapsing `a/b`'s children first leads (after collapsing `a`) to `{a}`,
while collapsing `a`'s children first leads to `{a, a/b}` — both stuck, and
distinct.  Python dictionary iteration order over `by_parent` decides which
one the source computes. -/
theorem claim_C8_counterexample :
    Relation.ReflTransGen CollapseStep
      ({["a", "b"], ["a", "c"], ["a", "b", "x"], ["a", "b", "y"]} : Finset Path)
      ({["a"]} : Finset Path) ∧
    Relation.ReflTransGen CollapseStep
      ({["a", "b"], ["a", "c"], ["a", "b", "x"], ["a", "b", "y"]} : Finset Path)
      ({["a"], ["a", "b"]} : Finset Path) ∧
    (∀ T, ¬ CollapseStep ({["a"]} : Finset Path) T) ∧
    (∀ T, ¬ CollapseStep ({["a"], ["a", "b"]} : Finset Path) T) ∧
    ({["a"]} : Finset Path) ≠ ({["a"], ["a", "b"]} : Finset Path) := by
  refine ⟨?_, ?_, ?_, ?_, by decide⟩
  · exact Relation.ReflTransGen.head
      (⟨["a", "b"], by decide, by decide⟩ :
        CollapseStep {["a", "b"], ["a", "c"], ["a", "b", "x"], ["a", "b", "y"]}
          {["a", "b"], ["a", "c"]})
      (Relation.ReflTransGen.head
        (⟨["a"], by decide, by decide⟩ :
          CollapseStep {["a", "b"], ["a", "c"]} {["a"]})
        Relation.ReflTransGen.refl)
  · exact Relation.ReflTransGen.head
      (⟨["a"], by decide, by decide⟩ :
        CollapseStep {["a", "b"], ["a", "c"], ["a", "b", "x"], ["a", "b", "y"]}
          {["a"], ["a", "b", "x"], ["a", "b", "y"]})
      (Relation.ReflTransGen.head
        (⟨["a", "b"], by decide, by decide⟩ :
          CollapseStep {["a"], ["a", "b", "x"], ["a", "b", "y"]} {["a"], ["a", "b"]})
        Relation.ReflTransGen.refl)
  · exact isStuck_of_small (by decide)
  · have h := stuck_of_findCollapsible_none
      (S := [["a"], ["a", "b"]]) (by decide) (by decide)
    have heq : ([[("a" : String)], ["a", "b"]].toFinset : Finset Path)
        = {["a"], ["a", "b"]} := by decide
    rw [heq] at h
    exact h

/-- C8 (amended): member-path derivation is a deterministic function of the
input directory set for a fixed examination order — the implementation's
`collapseAll` always terminates in a fixpoint of the collapse relation, so
running it twice on the same set gives identical lists — but the fixpoint
reached is *not* independent of the order in which parent groups are
examined (see the counterexample): the loop performs valid collapse steps
until no group is collapsible. -/
theorem claim_C8 (S : List Path) (h : S.Nodup) :
    Relation.ReflTransGen CollapseStep S.toFinset (collapseAll S).toFinset ∧
    (∀ T, ¬ CollapseStep (collapseAll S).toFinset T) := by
  constructor
  · exact reflTransGen_collapseAllFuel S.length S h
  · exact stuck_of_findCollapsible_none
      (nodup_collapseAllFuel S.length S h) (findCollapsible_collapseAll S)

/-- Witness for C8 at the example working set: the implementation's run is
a step sequence to a stuck state. -/
theorem claim_C8_witness :
    Relation.ReflTransGen CollapseStep
      ([["libs", "foo"], ["libs", "bar"], ["apps", "app1"]] : List Path).toFinset
      (collapseAll [["libs", "foo"], ["libs", "bar"], ["apps", "app1"]]).toFinset ∧
    ∀ T, ¬ CollapseStep
      (collapseAll [["libs", "foo"], ["libs", "bar"], ["apps", "app1"]]).toFinset T :=
  claim_C8 [["libs", "foo"], ["libs", "bar"], ["apps", "app1"]] (by decide)

end ReggieBuild
